import Mathlib

/-!
Verification of the inline-markup response transformer of the lammastudio
repository.  The transformer normalizes `<think>...</think>` reasoning spans
and `<tool_call>...</tool_call>` tool invocations that backend models encode
inside chat-completion `content` text.

Two independent implementations exist in the source and are both embedded
here, faithfully to the Python:

* `Handler` — the LiteLLM callback `ToolCallHandler`
  (src/config/tool_call_handler.py): `_parse_think_tags`,
  `_parse_tool_calls`, `async_post_call_success_hook`, and the per-fragment
  streaming deployment hook.
* `Tabby` — the TabbyAPI proxy (src/scripts/tabby_proxy.py): `hash_string`,
  `parse_args_section`, `extract_think_content`, `extract_tool_calls`,
  `clean_tool_call_tags`, `transform_response`.

Python strings are modelled as `List Char` (`Str`).  All definitions use
structural (or fuel-bounded) recursion so that closed instances evaluate
inside the kernel.  Python regular expressions are translated into explicit
scanners; every translation is justified in the doc comment of the
corresponding definition.
-/

set_option maxRecDepth 100000

/-- Python strings are sequences of code points; we model them as `List Char`. -/
abbrev Str := List Char

/-- Python whitespace as used by `str.strip` and `\s` (ASCII subset; all inputs
in this development are ASCII). -/
def isSpace (c : Char) : Bool :=
  c = ' ' || c = '\t' || c = '\n' || c = '\r' || c = '\x0b' || c = '\x0c'

/-- Python strip: `pyStrip s` is Python `s.strip()`: drop whitespace from both ends. -/
def pyStrip (s : Str) : Str :=
  ((s.dropWhile isSpace).reverse.dropWhile isSpace).reverse

/-- Prefix test: `startsWith p s` is true when `p` is an initial segment of `s`
(Python `s.startswith(p)`). -/
def startsWith : Str → Str → Bool
  | [], _ => true
  | _ :: _, [] => false
  | a :: ps, b :: ss => if a = b then startsWith ps ss else false

/-- Substring test: `hasSub p s` is true when `p` occurs as a contiguous substring of `s`
(Python `p in s`). -/
def hasSub (p : Str) : Str → Bool
  | [] => startsWith p []
  | c :: t => startsWith p (c :: t) || hasSub p t

/-- First-occurrence split: `splitFirst p s` splits `s` at the first occurrence of `p`, returning the
text before and after it (Python `s.split(p, 1)` when `p` occurs, and the
position used by `re` for a first/leftmost literal match). -/
def splitFirst (p : Str) : Str → Option (Str × Str)
  | [] => if startsWith p [] then some ([], []) else none
  | c :: t =>
    if startsWith p (c :: t) then some ([], (c :: t).drop p.length)
    else (splitFirst p t).map fun ba => (c :: ba.1, ba.2)

/-- Fuel-bounded worker for `replaceAll` (Python `s.replace(p, r)`:
left-to-right, non-overlapping). -/
def replaceAllF (p r : Str) : Nat → Str → Str
  | 0, s => s
  | _ + 1, [] => []
  | fuel + 1, c :: t =>
    if p ≠ [] ∧ startsWith p (c :: t) then
      r ++ replaceAllF p r fuel ((c :: t).drop p.length)
    else c :: replaceAllF p r fuel t

/-- Python `s.replace(p, r)`. -/
def replaceAll (p r s : Str) : Str := replaceAllF p r (s.length + 1) s

/-- Concatenation of a list of strings (used to assemble streamed fragments). -/
def catAll : List Str → Str
  | [] => []
  | s :: rest => s ++ catAll rest

def thinkOpen : Str := "<think>".toList
def thinkClose : Str := "</think>".toList
def toolOpen : Str := "<tool_call>".toList
def toolClose : Str := "</tool_call>".toList

/-- No-self-overlap: `p` does not overlap itself: no proper nonempty suffix of `p` is an initial
segment of `p`.  Both `</think>` and `</tool_call>` satisfy this because `<`
occurs only at index 0. -/
def NoSelfOverlap (p : Str) : Prop :=
  ∀ k, k < p.length → 0 < k → startsWith (p.drop k) p = false

instance (p : Str) : Decidable (NoSelfOverlap p) := by
  unfold NoSelfOverlap
  infer_instance


/-! ### JSON values

A model of the fragment of `json.loads` / `json.dumps` exercised by the
repository: objects, arrays, strings with simple escapes, integers, booleans
and null.  (Fractional/exponent number literals and `\uXXXX` escapes are
rejected by the model; no input in this development contains them.)  Nested
lists are avoided in favour of a mutual inductive so that all functions are
plain structural recursions that reduce inside the kernel. -/

mutual
inductive Json where
  | null
  | bool (b : Bool)
  | num (n : Int)
  | str (s : Str)
  | arr (items : JsonItems)
  | obj (fields : JsonFields)
deriving DecidableEq
inductive JsonItems where
  | nil
  | cons (hd : Json) (tl : JsonItems)
deriving DecidableEq
inductive JsonFields where
  | nil
  | cons (key : Str) (val : Json) (tl : JsonFields)
deriving DecidableEq
end

/-- Lookup as `dict.get` on parsed JSON object members; with duplicate keys the later
entry wins, as in a Python dict built by the json decoder.  (All inputs in
this development have distinct keys.) -/
def jGet : JsonFields → Str → Option Json
  | .nil, _ => none
  | .cons k v tl, key =>
    match jGet tl key with
    | some r => some r
    | none => if k = key then some v else none

/-- The dict comprehension dropping one key, preserving member order. -/
def jDropKey : JsonFields → Str → JsonFields
  | .nil, _ => .nil
  | .cons k v tl, key =>
    if k = key then jDropKey tl key else .cons k v (jDropKey tl key)

/-- Python truthiness of a decoded JSON value (`if x:` / `if not x:`). -/
def jsonTruthy : Json → Bool
  | .null => false
  | .bool b => b
  | .num n => decide (n ≠ 0)
  | .str s => decide (s ≠ [])
  | .arr .nil => false
  | .arr (.cons _ _) => true
  | .obj .nil => false
  | .obj (.cons _ _ _) => true

def digitChar (d : Nat) : Char := Char.ofNat (48 + d)

def natToDigits : Nat → Nat → Str
  | 0, _ => []
  | fuel + 1, n =>
    if n < 10 then [digitChar n]
    else natToDigits fuel (n / 10) ++ [digitChar (n % 10)]

/-- Decimal representation of a natural number. -/
def natRepr (n : Nat) : Str := natToDigits (n + 1) n

/-- Decimal representation of an integer (Python `str`/`json.dumps` style). -/
def intRepr (i : Int) : Str :=
  if i < 0 then '-' :: natRepr i.natAbs else natRepr i.natAbs

def digitsToNat (ds : Str) : Nat :=
  ds.foldl (fun acc c => acc * 10 + (c.toNat - 48)) 0

/-- String-literal body parser: consumes up to and including the closing
quote, handling the simple backslash escapes of the json module. -/
def escTable : List (Char × Char) :=
  [ ('"', '"'), ('\\', '\\'), ('/', '/'), ('n', '\n'),
    ('t', '\t'), ('r', '\r'), ('b', Char.ofNat 8), ('f', Char.ofNat 12)]

def escChar (e : Char) : Option Char :=
  (escTable.find? fun p => decide (p.1 = e)).map Prod.snd

def parseStrLit : Str → Option (Str × Str)
  | [] => none
  | '"' :: t => some ([], t)
  | '\\' :: e :: t =>
    match escChar e with
    | none => none
    | some c => (parseStrLit t).map fun cs_r => (c :: cs_r.1, cs_r.2)
  | ['\\'] => none
  | c :: t => (parseStrLit t).map fun cs_r => (c :: cs_r.1, cs_r.2)

/-- Parser modes: a JSON value, the remainder of an object after `{` (which
may close immediately), a mandatory further object member, and likewise for
arrays.  A single fuelled function avoids mutual recursion so that closed
calls reduce definitionally. -/
inductive PMode where
  | val
  | objRest
  | objMore
  | arrRest
  | arrMore

def parseJ : Nat → PMode → Str → Option (Json × Str)
  | 0, _, _ => none
  | fuel + 1, .val, s0 =>
    let s := s0.dropWhile isSpace
    match s with
    | [] => none
    | c :: t =>
      if c = '"' then (parseStrLit t).map fun r => (Json.str r.1, r.2)
      else if c = '\x7b' then parseJ fuel .objRest t
      else if c = '[' then parseJ fuel .arrRest t
      else if startsWith "true".toList s then some (Json.bool true, s.drop 4)
      else if startsWith "false".toList s then some (Json.bool false, s.drop 5)
      else if startsWith "null".toList s then some (Json.null, s.drop 4)
      else
        let neg := c = '-'
        let s1 := if neg then t else s
        let digits := s1.takeWhile Char.isDigit
        if digits = [] then none
        else
          let v : Int := Int.ofNat (digitsToNat digits)
          some (Json.num (if neg then -v else v), s1.drop digits.length)
  | fuel + 1, .objRest, s0 =>
    match s0.dropWhile isSpace with
    | '\x7d' :: t => some (Json.obj .nil, t)
    | _ => parseJ fuel .objMore s0
  | fuel + 1, .objMore, s0 =>
    match s0.dropWhile isSpace with
    | '"' :: t =>
      match parseStrLit t with
      | none => none
      | some (key, r1) =>
        match r1.dropWhile isSpace with
        | ':' :: r3 =>
          match parseJ fuel .val r3 with
          | none => none
          | some (v, r4) =>
            match r4.dropWhile isSpace with
            | ',' :: r6 =>
              match parseJ fuel .objMore r6 with
              | some (Json.obj fs, r7) => some (Json.obj (.cons key v fs), r7)
              | _ => none
            | '\x7d' :: r6 => some (Json.obj (.cons key v .nil), r6)
            | _ => none
        | _ => none
    | _ => none
  | fuel + 1, .arrRest, s0 =>
    match s0.dropWhile isSpace with
    | ']' :: t => some (Json.arr .nil, t)
    | _ => parseJ fuel .arrMore s0
  | fuel + 1, .arrMore, s0 =>
    match parseJ fuel .val s0 with
    | none => none
    | some (v, r1) =>
      match r1.dropWhile isSpace with
      | ',' :: r2 =>
        match parseJ fuel .arrMore r2 with
        | some (Json.arr items, r3) => some (Json.arr (.cons v items), r3)
        | _ => none
      | ']' :: r2 => some (Json.arr (.cons v .nil), r2)
      | _ => none

/-- Model of `json.loads`: parse one value, allow surrounding whitespace, reject
trailing data. -/
def loads (s : Str) : Option Json :=
  match parseJ (2 * s.length + 4) .val s with
  | some (v, rest) => if rest.all isSpace then some v else none
  | none => none

/-- json.dumps string escaping (inputs here are ASCII without control chars
beyond tab/newline/return). -/
def escapeChars : Str → Str
  | [] => []
  | c :: t =>
    (if c = '"' then ['\\', '"']
     else if c = '\\' then ['\\', '\\']
     else if c = '\n' then ['\\', 'n']
     else if c = '\t' then ['\\', 't']
     else if c = '\r' then ['\\', 'r']
     else [c]) ++ escapeChars t

def quoteJson (s : Str) : Str := '"' :: escapeChars s ++ ['"']

/-- Serialization targets for the fuelled `json.dumps` model. -/
inductive DTarget where
  | one (j : Json)
  | items (l : JsonItems)
  | fields (fs : JsonFields)

/-- Model of `json.dumps` with the default separators `", "` and `": "`. -/
def dumpsAux : Nat → DTarget → Str
  | 0, _ => []
  | fuel + 1, .one j =>
    match j with
    | .null => "null".toList
    | .bool b => (if b then "true" else "false").toList
    | .num n => intRepr n
    | .str s => quoteJson s
    | .arr .nil => "[]".toList
    | .arr l => '[' :: dumpsAux fuel (.items l) ++ [']']
    | .obj .nil => "\x7b\x7d".toList
    | .obj fs => '\x7b' :: dumpsAux fuel (.fields fs) ++ ['\x7d']
  | _ + 1, .items .nil => []
  | fuel + 1, .items (.cons h .nil) => dumpsAux fuel (.one h)
  | fuel + 1, .items (.cons h tl) =>
    dumpsAux fuel (.one h) ++ ", ".toList ++ dumpsAux fuel (.items tl)
  | _ + 1, .fields .nil => []
  | fuel + 1, .fields (.cons k v .nil) =>
    quoteJson k ++ ": ".toList ++ dumpsAux fuel (.one v)
  | fuel + 1, .fields (.cons k v tl) =>
    quoteJson k ++ ": ".toList ++ dumpsAux fuel (.one v) ++ ", ".toList ++
      dumpsAux fuel (.fields tl)

/-- Fuel bound for serialization; it only needs to exceed the nesting depth
of the value (evaluation unfolds the fuel lazily, one step per recursion). -/
def serFuel : Nat := 1000000

def dumps (j : Json) : Str := dumpsAux serFuel (.one j)

/-- Python `repr` of a decoded JSON value (single-quoted strings), used by
`str(...)` on containers. -/
def pyReprAux : Nat → DTarget → Str
  | 0, _ => []
  | fuel + 1, .one j =>
    match j with
    | .null => "None".toList
    | .bool true => "True".toList
    | .bool false => "False".toList
    | .num n => intRepr n
    | .str s => '\'' :: s ++ ['\'']
    | .arr .nil => "[]".toList
    | .arr l => '[' :: pyReprAux fuel (.items l) ++ [']']
    | .obj .nil => "\x7b\x7d".toList
    | .obj fs => '\x7b' :: pyReprAux fuel (.fields fs) ++ ['\x7d']
  | _ + 1, .items .nil => []
  | fuel + 1, .items (.cons h .nil) => pyReprAux fuel (.one h)
  | fuel + 1, .items (.cons h tl) =>
    pyReprAux fuel (.one h) ++ ", ".toList ++ pyReprAux fuel (.items tl)
  | _ + 1, .fields .nil => []
  | fuel + 1, .fields (.cons k v .nil) =>
    '\'' :: k ++ "': ".toList ++ pyReprAux fuel (.one v)
  | fuel + 1, .fields (.cons k v tl) =>
    '\'' :: k ++ "': ".toList ++ pyReprAux fuel (.one v) ++ ", ".toList ++
      pyReprAux fuel (.fields tl)

/-- Python `str(x)` of a decoded JSON value: identity on strings, `repr`-like
on everything else. -/
def pyStr : Json → Str
  | .str s => s
  | j => pyReprAux serFuel (.one j)

/-- An OpenAI tool-call entry as built by both implementations:
`id`, the constant `"type": "function"` (field `typ`), and the
`function.name` / `function.arguments` payload (arguments JSON-encoded). -/
structure ToolCall where
  id : Str
  typ : Str
  name : Str
  arguments : Str
deriving DecidableEq


/-! ### Generic regex-as-scanner helpers -/

/-- Fuel-bounded worker for `findBetween`. -/
def findBetweenF (openT closeT : Str) : Nat → Str → List Str
  | 0, _ => []
  | fuel + 1, s =>
    match splitFirst openT s with
    | none => []
    | some (_, rest) =>
      match splitFirst closeT rest with
      | none => []
      | some (body, rest2) => body :: findBetweenF openT closeT fuel rest2

/-- Model of `re.findall(open + '(.*?)' + close, s, re.DOTALL)`: non-overlapping
left-to-right matches; each match starts at the next occurrence of `openT`
and its body runs to the first occurrence of `closeT` after it (the lazy
group), scanning resuming after the consumed close marker.  A later match
cannot start before an unmatched earlier `openT` because the pattern must
begin with the literal `openT`. -/
def findBetween (openT closeT s : Str) : List Str :=
  findBetweenF openT closeT (s.length + 1) s

/-- Fuel-bounded worker for `removeBetween`. -/
def removeBetweenF (openT closeT : Str) : Nat → Str → Str
  | 0, s => s
  | fuel + 1, s =>
    match splitFirst openT s with
    | none => s
    | some (pre, rest) =>
      match splitFirst closeT rest with
      | none => s
      | some (_, rest2) => pre ++ removeBetweenF openT closeT fuel rest2

/-- Model of `re.sub(open + '[\s\S]*?' + close, '', s)`: the same match enumeration as
`findBetween`, with each matched span deleted. -/
def removeBetween (openT closeT s : Str) : Str :=
  removeBetweenF openT closeT (s.length + 1) s

namespace Handler

/-! ### src/config/tool_call_handler.py -/

/-- Strip one leading `<think>` marker (the regex group `^(?:<think>)?`). -/
def stripLeadingThink (s : Str) : Str :=
  if startsWith thinkOpen s then s.drop thinkOpen.length else s

/-- Model of `ToolCallHandler._parse_think_tags`, i.e. matching
`^(?:<think>)?(.*?)</think>(.*)$` with `re.DOTALL` and stripping both groups.
The optional leading group consumes `<think>` exactly when it is at position
0, and the lazy group then ends at the first `</think>` of the remainder;
this equals stripping the leading marker and splitting at the first
`</think>` (no occurrence of `</think>` can start inside the 7-character
leading marker, whose only `<` is at offset 0).  On no match — that is, when
`</think>` does not occur — the original content is returned with no
reasoning. -/
def parse_think_tags (content : Str) : Option Str × Str :=
  if content = [] then (none, content)
  else
    match splitFirst thinkClose (stripLeadingThink content) with
    | some (b, a) => (some (pyStrip b), pyStrip a)
    | none => (none, content)

/-- Model of `re.search(r'\{[^{}]*\}', s)`: the first (leftmost) brace span containing
no nested braces.  A candidate can only start at a `\x7b` character whose
following brace-free run is closed by `\x7d`. -/
def searchFlatF : Nat → Str → Option Str
  | 0, _ => none
  | _ + 1, [] => none
  | fuel + 1, c :: t =>
    if c = '\x7b' then
      let run := t.takeWhile fun ch => !(ch = '\x7b' || ch = '\x7d')
      match t.drop run.length with
      | '\x7d' :: _ => some ('\x7b' :: run ++ ['\x7d'])
      | _ => searchFlatF fuel t
    else searchFlatF fuel t

def searchFlat (s : Str) : Option Str := searchFlatF (s.length + 1) s

/-- The `(?:\s*$|(?=<))` tail of tool-call pattern 3: with `re.DOTALL` and no
`re.MULTILINE`, `\s*$` holds exactly when the remainder is all whitespace,
and the lookahead requires the next character to be `<`. -/
def p3Cond (rest : Str) : Bool :=
  rest.all isSpace ||
    (match rest with
     | '<' :: _ => true
     | _ => false)

/-- Lazy search for the end of a pattern-3 body: the accumulated body (held
reversed) must end in `\x7d` and satisfy `p3Cond` on the remainder; shorter
bodies are tried first, matching the lazy `\{.*?\}`. -/
def p3BodyAux : Str → Str → Option (Str × Str)
  | revAcc, [] =>
    if (match revAcc with
        | '\x7d' :: _ => true
        | _ => false) && p3Cond [] then
      some (revAcc.reverse, [])
    else none
  | revAcc, c :: t =>
    if (match revAcc with
        | '\x7d' :: _ => true
        | _ => false) && p3Cond (c :: t) then
      some (revAcc.reverse, c :: t)
    else p3BodyAux (c :: revAcc) t

/-- Model of `re.findall(r'<tool_call>(\{.*?\})(?:\s*$|(?=<))', s, re.DOTALL)`: at each
occurrence of `<tool_call>` directly followed by `\x7b`, the shortest
brace-terminated body whose remainder satisfies the tail condition.  On
failure the scan resumes after the literal tag (no occurrence of the tag can
start inside it: its only `<` is at offset 0). -/
def p3ScanF : Nat → Str → List Str
  | 0, _ => []
  | fuel + 1, s =>
    match splitFirst toolOpen s with
    | none => []
    | some (_, rest) =>
      match rest with
      | '\x7b' :: t =>
        match p3BodyAux ['\x7b'] t with
        | some (body, rest2) => body :: p3ScanF fuel rest2
        | none => p3ScanF fuel rest
      | _ => p3ScanF fuel rest

def p3Scan (s : Str) : List Str := p3ScanF (s.length + 1) s

def chomp (lit s : Str) : Option Str :=
  if startsWith lit s then some (s.drop lit.length) else none

/-- One attempt of tool-call pattern 4,
`\{"name"\s*:\s*"([^"]+)"\s*,\s*"arguments"\s*:\s*(\{[^}]+\})\}`, at the
current position: each `\s*` is a maximal whitespace run (the following
literal is never whitespace so no backtracking arises), `[^"]+` and `[^}]+`
are maximal nonempty runs ended by the excluded character.  Returns the two
captured groups and the remainder after the match. -/
def rawJsonTry (s : Str) : Option (Str × Str × Str) :=
  match chomp "\x7b\"name\"".toList s with
  | none => none
  | some r1 =>
    match r1.dropWhile isSpace with
    | ':' :: r3 =>
      match r3.dropWhile isSpace with
      | '"' :: r5 =>
        let nm := r5.takeWhile fun ch => !(ch = '"')
        if nm = [] then none
        else
          match r5.drop nm.length with
          | '"' :: r6 =>
            match r6.dropWhile isSpace with
            | ',' :: r8 =>
              match chomp "\"arguments\"".toList (r8.dropWhile isSpace) with
              | none => none
              | some r10 =>
                match r10.dropWhile isSpace with
                | ':' :: r12 =>
                  match r12.dropWhile isSpace with
                  | '\x7b' :: r14 =>
                    let inner := r14.takeWhile fun ch => !(ch = '\x7d')
                    if inner = [] then none
                    else
                      match r14.drop inner.length with
                      | '\x7d' :: '\x7d' :: r16 =>
                        some (nm, '\x7b' :: inner ++ ['\x7d'], r16)
                      | _ => none
                  | _ => none
                | _ => none
            | _ => none
          | _ => none
      | _ => none
    | _ => none

/-- Scanner as `re.findall` for pattern 4: left-to-right, non-overlapping, resuming
after each match and advancing one character after a failed position. -/
def rawScanF : Nat → Str → List (Str × Str)
  | 0, _ => []
  | _ + 1, [] => []
  | fuel + 1, c :: t =>
    match rawJsonTry (c :: t) with
    | some (nm, args, rest) => (nm, args) :: rawScanF fuel rest
    | none => rawScanF fuel t

def rawScan (s : Str) : List (Str × Str) := rawScanF (s.length + 1) s

/-- The `"name"` value stored into the tool call; in every input considered
it is a JSON string. -/
def jsonToName : Json → Str
  | .str s => s
  | j => pyStr j

/-- The loop body of `_parse_tool_calls` over pattern-4 matches: the captured
argument object is re-parsed with `json.loads`; a parse failure continues the
loop (the regex itself guarantees shape, but the model keeps the guard).
`mkId k` models the fresh `call_<uuid4-hex9>` drawn for the k-th appended
call. -/
def raw_loop (mkId : Nat → Str) (k : Nat) : List (Str × Str) → List ToolCall
  | [] => []
  | (nm, args) :: rest =>
    match loads args with
    | none => raw_loop mkId k rest
    | some parsed =>
      ⟨mkId k, "function".toList, nm, dumps parsed⟩ :: raw_loop mkId (k + 1) rest

/-- The body narrowing of `_parse_tool_calls`: strip the match, then replace
it by the first flat brace span when `re.search(r'\{[^{}]*\}')` finds one. -/
def narrowBody (m : Str) : Str :=
  let json_str := pyStrip m
  match searchFlat json_str with
  | some j => j
  | none => json_str

/-- Per-match processing of `_parse_tool_calls`: narrow the body, parse it,
require a dict carrying a truthy `"name"`, default absent-or-falsy
`"arguments"` to the remaining top-level keys, and encode the arguments
(`json.dumps` for dicts, `str(...)` otherwise).  A JSON parse failure or the
`AttributeError` from `.get` on a non-dict is caught and the match skipped. -/
def bodyToCall (m : Str) : Option (Str × Str) :=
  match loads (narrowBody m) with
  | none => none
  | some (Json.obj fs) =>
    let function_name := jGet fs "name".toList
    let arguments := (jGet fs "arguments".toList).getD (Json.obj .nil)
    let arguments :=
      if jsonTruthy arguments = false then Json.obj (jDropKey fs "name".toList)
      else arguments
    match function_name with
    | some fn =>
      if jsonTruthy fn then
        some (jsonToName fn,
          match arguments with
          | Json.obj _ => dumps arguments
          | j => pyStr j)
      else none
    | none => none
  | some _ => none

/-- The `for match in matches` loop: failed bodies are skipped without
aborting; each success appends a call with a fresh synthesized id. -/
def tool_call_loop (mkId : Nat → Str) (k : Nat) : List Str → List ToolCall
  | [] => []
  | m :: rest =>
    match bodyToCall m with
    | none => tool_call_loop mkId k rest
    | some (nm, args) =>
      ⟨mkId k, "function".toList, nm, args⟩ :: tool_call_loop mkId (k + 1) rest

/-- Model of `ToolCallHandler._parse_tool_calls`: pattern 1 (paired tags), then — only
when it found nothing and `<tool_call>` occurs — pattern 2 (tag closed by
`</think>`), then pattern 3 (truncated tail); if all tag patterns found
nothing, pattern 4 (bare JSON) builds calls directly; otherwise the matched
bodies run through the per-match loop. -/
def parse_tool_calls (mkId : Nat → Str) (content0 : Str) : List ToolCall :=
  let content := pyStrip content0
  let m1 := findBetween toolOpen toolClose content
  let ms :=
    if m1 = [] ∧ hasSub toolOpen content then findBetween toolOpen thinkClose content
    else m1
  let ms :=
    if ms = [] ∧ hasSub toolOpen content then p3Scan content
    else ms
  if ms = [] then raw_loop mkId 0 (rawScan content)
  else tool_call_loop mkId 0 ms

/-- One choice's message, as mutated by the hooks: `content`,
`reasoning_content` (absent unless set), and `tool_calls` (`[]` models an
absent/None list). -/
structure Message where
  content : Option Str
  reasoning_content : Option Str
  tool_calls : List ToolCall
deriving DecidableEq

def funcCallsOpen : Str := "<function_calls>".toList
def nameKeyLit : Str := "\"name\"".toList

/-- The think-tag block of `async_post_call_success_hook`: applied only when
`</think>` occurs in the content and the extracted reasoning is truthy. -/
def applyThink (m : Message) : Message :=
  let content := m.content.getD []
  if hasSub thinkClose content then
    match parse_think_tags content with
    | (some r, mainc) =>
      if r ≠ [] then { m with content := some mainc, reasoning_content := some r }
      else m
    | (none, _) => m
  else m

/-- Model of `ToolCallHandler.async_post_call_success_hook` on one choice: first the
think-tag block, then — unless the message already carries tool calls —
tool-call parsing when the content shows one of the three markers; on
success the parsed calls are attached and the finish signal becomes
`"tool_calls"`.  The message `content` is never rewritten by the tool-call
step. -/
def async_post_call_success_hook (mkId : Nat → Str) (m : Message)
    (finish : Option Str) : Message × Option Str :=
  let m1 := applyThink m
  let content2 := m1.content.getD []
  if m1.tool_calls ≠ [] then (m1, finish)
  else if hasSub toolOpen content2 || hasSub funcCallsOpen content2 ||
      (startsWith ['\x7b'] (pyStrip content2) && hasSub nameKeyLit content2) then
    let tc := parse_tool_calls mkId content2
    if tc ≠ [] then ({ m1 with tool_calls := tc }, some "tool_calls".toList)
    else (m1, finish)
  else (m1, finish)

/-- The per-request stream buffer of the deployment hook. -/
structure StreamBuf where
  buffer : Str
  in_thinking : Bool
  think_complete : Bool
  reasoning_emitted : Bool
deriving DecidableEq

def emptyBuf : StreamBuf := ⟨[], false, false, false⟩

/-- The transformation the streaming deployment hook applies to one chunk's
delta.  The hook only ever assigns `delta.reasoning_content` and
`delta.content`; it never creates tool-call deltas, so its entire effect on
a fragment is described by these two fields. -/
structure DeltaOut where
  reasoning_content : Option Str
  content : Option Str
deriving DecidableEq

/-- Model of `ToolCallHandler.async_post_call_streaming_deployment_hook` on one
fragment carrying delta content `c` (an empty `c` skips all processing):
append to the buffer, enter thinking mode when `<think>` appears, then the
three-way branch of the source — `</think>` without `<think>` (GLM style),
`</think>` inside thinking, still-open thinking (incremental reasoning
delta) — else pass the fragment through. -/
def streaming_hook_step (buf : StreamBuf) (c : Str) : StreamBuf × DeltaOut :=
  if c = [] then (buf, ⟨none, none⟩)
  else
    let buffer := buf.buffer ++ c
    let inTh := buf.in_thinking || hasSub thinkOpen buffer
    if !inTh && !buf.think_complete && hasSub thinkClose buffer then
      let pr := (splitFirst thinkClose buffer).getD (buffer, [])
      let reasoning := pyStrip pr.1
      let remaining := pyStrip pr.2
      let emit := decide (reasoning ≠ []) && !buf.reasoning_emitted
      (⟨buffer, inTh, true, buf.reasoning_emitted || emit⟩,
        ⟨if emit then some reasoning else none,
         if remaining = [] then none else some remaining⟩)
    else if inTh && !buf.think_complete && hasSub thinkClose buffer then
      let pr := parse_think_tags buffer
      let r := pr.1.getD []
      let emit := decide (r ≠ []) && !buf.reasoning_emitted
      (⟨buffer, inTh, true, buf.reasoning_emitted || emit⟩,
        ⟨if emit then some r else none, some pr.2⟩)
    else if inTh && !buf.think_complete then
      let clean := replaceAll thinkOpen [] c
      (⟨buffer, inTh, buf.think_complete, buf.reasoning_emitted⟩,
        ⟨some clean, none⟩)
    else
      (⟨buffer, inTh, buf.think_complete, buf.reasoning_emitted⟩,
        ⟨none, some c⟩)

/-- Feed a fragment sequence of one session through the hook. -/
def runFrom (buf : StreamBuf) : List Str → List DeltaOut
  | [] => []
  | f :: fs =>
    let step := streaming_hook_step buf f
    step.2 :: runFrom step.1 fs

def runStream (frags : List Str) : List DeltaOut := runFrom emptyBuf frags

/-- The reasoning text a client assembles from the stream: concatenation of
all `reasoning_content` deltas. -/
def totalReasoning (outs : List DeltaOut) : Str :=
  catAll (outs.map fun o => o.reasoning_content.getD [])

/-- The content text a client assembles from the stream. -/
def totalContent (outs : List DeltaOut) : Str :=
  catAll (outs.map fun o => o.content.getD [])

def streamTotals (frags : List Str) : Str × Str :=
  (totalReasoning (runStream frags), totalContent (runStream frags))

end Handler

namespace Tabby

/-! ### src/scripts/tabby_proxy.py -/

/-- One step of `hash_string`'s loop: `h = ((h << 5) - h + ord(c)) &
0xFFFFFFFF`, then reinterpreted as a signed 32-bit value.  Python's `&`
with a non-negative mask is the non-negative remainder, which Lean's `Int`
`%` with a positive modulus also produces. -/
def hashStep (h : Int) (c : Char) : Int :=
  let u := (h * 32 - h + (c.toNat : Int)) % (4294967296 : Int)
  if u ≥ 2147483648 then u - 4294967296 else u

/-- Model of `hash_string`: the JavaScript-style rolling hash used to synthesize
tool-call ids, rendered as `call_<abs(h)>`. -/
def hash_string (s : Str) : Str :=
  "call_".toList ++ natRepr (s.foldl hashStep 0).natAbs

/-- Scanner for `re.findall(r'<([^/>]+)>(.*?)</\1>', s, re.DOTALL)` (the
back-reference grammar of `parse_args_section`): at each `<`, the key is the
maximal run without `/` or `>` (nonempty, and the next character must be
`>`), and the value runs lazily to the first matching `</key>`.  On failure
the scan advances one character, on success past the consumed closing tag. -/
def argScanF : Nat → Str → List (Str × Str)
  | 0, _ => []
  | _ + 1, [] => []
  | fuel + 1, c :: t =>
    if c = '<' then
      let key := t.takeWhile fun ch => !(ch = '/' || ch = '>')
      match t.drop key.length with
      | '>' :: rest2 =>
        if key = [] then argScanF fuel t
        else
          match splitFirst ('<' :: '/' :: key ++ ['>']) rest2 with
          | some (v, tail) => (key, v) :: argScanF fuel tail
          | none => argScanF fuel t
      | _ => argScanF fuel t
    else argScanF fuel t

def endsWith (suf s : Str) : Bool := startsWith suf.reverse s.reverse

/-- Value processing of `parse_args_section`: strip, unwrap a `b'...'` /
`b"..."` byte-string literal, unescape `\"`, then attempt `json.loads`,
keeping the raw string on failure. -/
def processArgValue (value : Str) : Json :=
  let pv := pyStrip value
  let pv :=
    if (startsWith "b'".toList pv && endsWith "'".toList pv) ||
        (startsWith "b\"".toList pv && endsWith "\"".toList pv) then
      (pv.drop 2).dropLast
    else pv
  let pv := replaceAll ['\\', '"'] ['"'] pv
  match loads pv with
  | some j => j
  | none => Json.str pv

def argsFields : List (Str × Str) → JsonFields
  | [] => .nil
  | (k, v) :: rest => .cons k (processArgValue v) (argsFields rest)

/-- Model of `parse_args_section` (dict in insertion order; inputs here have distinct
keys). -/
def parse_args_section (args_section : Str) : JsonFields :=
  if args_section = [] then .nil
  else argsFields (argScanF (args_section.length + 1) args_section)

def isWordChar (c : Char) : Bool := c.isAlphanum || c = '_'

/-- End search for the XML grammar's lazy body: the minimal split point after
which a maximal whitespace run (`\s*`) is followed by `</tool_call>`;
returns the body and the text after the closing tag. -/
def xmlEndAux : Str → Option (Str × Str)
  | [] => none
  | c :: t =>
    let w := (c :: t).dropWhile isSpace
    if startsWith toolClose w then some ([], w.drop toolClose.length)
    else (xmlEndAux t).map fun g => (c :: g.1, g.2)

/-- Fused `findall`+`sub` for
`re.compile(r'<tool_call>\s*(\w+)\s*([\s\S]*?)\s*</tool_call>')`: both regex
operations enumerate the same non-overlapping left-to-right matches.  At
each occurrence of the open tag: a maximal whitespace run, a nonempty
maximal `\w+` name, a maximal whitespace run, then the lazy body ended by
`\s*</tool_call>`.  A failed position resumes scanning after the literal
tag (no occurrence of the tag starts inside it). -/
def xmlFindSubF : Nat → Str → List (Str × Str) × Str
  | 0, s => ([], s)
  | fuel + 1, s =>
    match splitFirst toolOpen s with
    | none => ([], s)
    | some (pre, rest) =>
      let r1 := rest.dropWhile isSpace
      let nm := r1.takeWhile isWordChar
      if nm = [] then
        let r := xmlFindSubF fuel rest
        (r.1, pre ++ toolOpen ++ r.2)
      else
        match xmlEndAux ((r1.drop nm.length).dropWhile isSpace) with
        | none =>
          let r := xmlFindSubF fuel rest
          (r.1, pre ++ toolOpen ++ r.2)
        | some (g2, tail) =>
          let r := xmlFindSubF fuel tail
          ((nm, g2) :: r.1, pre ++ r.2)

def xmlFindSub (s : Str) : List (Str × Str) × Str := xmlFindSubF (s.length + 1) s

/-- Split a `<`-free run at its last `\x7d` (the backtracked end of the
greedy `[^<]*` before the literal `\}`). -/
def lastBraceSplit (run : Str) : Option (Str × Str) :=
  let v := (run.reverse.takeWhile fun ch => !(ch = '\x7d')).reverse
  if v.length = run.length then none
  else some (run.take (run.length - v.length - 1), v)

/-- Fused `findall`+`sub` for
`re.compile(r'<tool_call>\s*(\{[^<]*\})\s*(?:</tool_call>)?')`: after each
open tag, a maximal whitespace run, then a brace span whose interior is the
`<`-free run cut at its last `\x7d`; the trailing maximal whitespace run and
an optional closing tag are consumed by the match (hence removed by `sub`)
whether or not the closing tag is present. -/
def junFindSubF : Nat → Str → List Str × Str
  | 0, s => ([], s)
  | fuel + 1, s =>
    match splitFirst toolOpen s with
    | none => ([], s)
    | some (pre, rest) =>
      match rest.dropWhile isSpace with
      | '\x7b' :: t =>
        let run := t.takeWhile fun ch => !(ch = '<')
        match lastBraceSplit run with
        | none =>
          let r := junFindSubF fuel rest
          (r.1, pre ++ toolOpen ++ r.2)
        | some (u, v) =>
          let after := v ++ t.drop run.length
          let a1 := after.dropWhile isSpace
          let cont := if startsWith toolClose a1 then a1.drop toolClose.length else a1
          let r := junFindSubF fuel cont
          (('\x7b' :: u ++ ['\x7d']) :: r.1, pre ++ r.2)
      | _ =>
        let r := junFindSubF fuel rest
        (r.1, pre ++ toolOpen ++ r.2)

def junFindSub (s : Str) : List Str × Str := junFindSubF (s.length + 1) s

/-- The stop test of `re.sub(r'<tool_call>[\s\S]*?(?=<[a-z]|$)', '', s)`:
the lazy body ends where the remainder starts with `<` plus a lowercase
letter, or at `$` — end of string or just before a final newline. -/
def stopCondB (s : Str) : Bool :=
  match s with
  | [] => true
  | ['\n'] => true
  | '<' :: d :: _ => 'a' ≤ d && d ≤ 'z'
  | _ => false

def stopTailB : Str → Str
  | [] => []
  | c :: t => if stopCondB (c :: t) then c :: t else stopTailB t

def subBF : Nat → Str → Str
  | 0, s => s
  | fuel + 1, s =>
    match splitFirst toolOpen s with
    | none => s
    | some (pre, rest) => pre ++ subBF fuel (stopTailB rest)

/-- Model of `re.sub(r'<tool_call>[^<]*$', '', s)`: an open tag all of whose following
text is `<`-free is removed together with that text (the greedy `[^<]*`
reaches the end of the string, absorbing a final newline). -/
def subCF : Nat → Str → Str
  | 0, s => s
  | fuel + 1, s =>
    match splitFirst toolOpen s with
    | none => s
    | some (pre, rest) =>
      if rest.all fun ch => !(ch = '<') then pre
      else pre ++ toolOpen ++ subCF fuel rest

/-- Model of `clean_tool_call_tags`: closed spans, then unclosed spans bounded by the
next tag or the end, then a trailing bare open tag, then strip. -/
def clean_tool_call_tags (content : Str) : Str :=
  if content = [] then content
  else
    let c1 := removeBetween toolOpen toolClose content
    let c2 := subBF (c1.length + 1) c1
    let c3 := subCF (c2.length + 1) c2
    pyStrip c3

def joinNL : List Str → Str
  | [] => []
  | [s] => s
  | s :: rest => s ++ '\n' :: joinNL rest

/-- Model of `extract_think_content`: all paired `<think>(.*?)</think>` blocks are
collected (stripped, joined with newlines) and removed from the content;
with no paired block the content is returned unchanged with no reasoning. -/
def extract_think_content (content : Str) : Option Str × Str :=
  if content = [] then (none, [])
  else
    let ms := findBetween thinkOpen thinkClose content
    if ms ≠ [] then
      (some (joinNL (ms.map pyStrip)),
        pyStrip (removeBetween thinkOpen thinkClose content))
    else (none, content)

/-- A JSON-grammar body of `extract_tool_calls`: `json.loads` failure skips
the match (it was already removed from the text by `sub`); a decoded dict
needs a truthy `"name"`.  The capture shape `\{...\}` always decodes to a
dict when it decodes at all. -/
def json_call (json_str : Str) : Option ToolCall :=
  match loads json_str with
  | none => none
  | some (Json.obj fs) =>
    let fn := (jGet fs "name".toList).getD (Json.str [])
    let arguments := (jGet fs "arguments".toList).getD (Json.obj .nil)
    if jsonTruthy fn then
      some ⟨hash_string json_str, "function".toList, Handler.jsonToName fn,
        match arguments with
        | Json.obj _ => dumps arguments
        | j => pyStr j⟩
    else none
  | some _ => none

/-- An XML-grammar invocation: id hashed from the reconstructed
`<tool_call>name args</tool_call>` text. -/
def xml_call (nm g2 : Str) : ToolCall :=
  let tool_name := pyStrip nm
  let args := parse_args_section g2
  let full_match := toolOpen ++ tool_name ++ ' ' :: g2 ++ toolClose
  ⟨hash_string full_match, "function".toList, tool_name, dumps (Json.obj args)⟩

/-- Model of `extract_tool_calls`: the XML grammar first (when it matches, its spans
are removed); then the unclosed-JSON grammar on the remaining text; then
`clean_tool_call_tags`; the remaining text is stripped. -/
def extract_tool_calls (content : Str) : List ToolCall × Str :=
  if content = [] then ([], [])
  else
    let xr := xmlFindSub content
    let cm1 :=
      if xr.1 ≠ [] then (xr.1.map fun nm_g => xml_call nm_g.1 nm_g.2, xr.2)
      else (([] : List ToolCall), content)
    let jr := junFindSub cm1.2
    let cm2 :=
      if jr.1 ≠ [] then (jr.1.filterMap json_call, jr.2)
      else (([] : List ToolCall), cm1.2)
    let modified3 := clean_tool_call_tags cm2.2
    (cm1.1 ++ cm2.1, pyStrip modified3)

/-- One choice's message in the proxy's JSON payload. -/
structure TMsg where
  content : Option Str
  reasoning_content : Option Str
  tool_calls : List ToolCall
deriving DecidableEq

/-- Model of `transform_response` on one choice: think extraction (reasoning recorded
only when truthy, content always replaced by the remainder), then — when
`<tool_call>` occurs — tool extraction, adopting the new calls and the
`"tool_calls"` finish signal only when the message had none; otherwise a
final tag cleanup; empty remaining content becomes `None`. -/
def transform_response (m : TMsg) (finish : Option Str) : TMsg × Option Str :=
  let content0 := m.content.getD []
  let tr := extract_think_content content0
  let content1 := tr.2
  let m1 :=
    match tr.1 with
    | some r => if r ≠ [] then { m with reasoning_content := some r } else m
    | none => m
  let existing := m.tool_calls
  if hasSub toolOpen content1 then
    let er := extract_tool_calls content1
    let newContent := if er.2 = [] then none else some er.2
    if existing = [] ∧ er.1 ≠ [] then
      ({ m1 with tool_calls := er.1, content := newContent },
        some "tool_calls".toList)
    else
      ({ m1 with content := newContent }, finish)
  else
    let content2 := clean_tool_call_tags content1
    ({ m1 with content := if content2 = [] then none else some content2 },
      finish)

end Tabby

/-! ### Concrete inputs used by the theorems -/

/-- A stand-in for the stream of fresh `call_<uuid4().hex[:9]>` identifiers the
handler draws; the k-th draw is modelled as `u<k>`.  The claims proved about
the handler do not depend on the drawn values. -/
def uuidStub : Nat → Str := fun k => 'u' :: natRepr k

/-- Scenario C of the specification: a paired tool-call span whose body is a
JSON object with a nested `arguments` object. -/
def nestedToolInput : Str :=
  "<tool_call>\x7b\"name\":\"get_weather\",\"arguments\":\x7b\"city\":\"Paris\"\x7d\x7d</tool_call>".toList

/-- A paired tool-call span with a flat (string) `arguments` value, which the
handler's flat-brace narrowing does parse. -/
def flatToolInput : Str :=
  "<tool_call>\x7b\"name\":\"f\",\"arguments\":\"1\"\x7d</tool_call>".toList

/-- A second flat-arguments span used for the streaming/complete comparison. -/
def plainToolMsg : Str :=
  "<tool_call>\x7b\"name\":\"n\",\"arguments\":\"x\"\x7d</tool_call>".toList

/-- GLM-style text: a closing think marker with no opening tag and nothing
after it. -/
def glmEmptyRemainder : Str := "abc</think>".toList

/-- Scenario B of the specification: reasoning with only a closing marker. -/
def scenarioB : Str := "some thoughts</think>Final answer".toList

/-- Scenario E of the specification: a tool-call span whose body is not JSON. -/
def notJsonInput : Str := "<tool_call>\x7bnot json\x7d</tool_call>".toList

/-- The same well-formed tool-call body repeated twice in one response. -/
def dupToolInput : Str :=
  ("<tool_call>\x7b\"name\":\"dup\",\"arguments\":\"1\"\x7d</tool_call> and again " ++
   "<tool_call>\x7b\"name\":\"dup\",\"arguments\":\"1\"\x7d</tool_call>").toList

/-- A flat-arguments span followed by trailing text. -/
def c7WitnessInput : Str :=
  "<tool_call>\x7b\"name\":\"w\",\"arguments\":\"2\"\x7d</tool_call> tail".toList

/-! ## Theorems: basic lemmas about `startsWith`, `hasSub` and `splitFirst` -/

theorem startsWith_nil (p : Str) (h : startsWith p [] = true) : p = [] := by
  cases p with
  | nil => rfl
  | cons a ps => simp [startsWith] at h

theorem startsWith_self_append (p x : Str) : startsWith p (p ++ x) = true := by
  induction p with
  | nil => simp [startsWith]
  | cons a ps ih => simp [startsWith, ih]

theorem startsWith_eq_append (p s : Str) (h : startsWith p s = true) :
    s = p ++ s.drop p.length := by
  induction p generalizing s with
  | nil => simp
  | cons a ps ih =>
    cases s with
    | nil => simp [startsWith] at h
    | cons b ss =>
      simp only [startsWith] at h
      split at h
      · next hab =>
        subst hab
        have := ih ss h
        simpa [List.length_cons] using congrArg (a :: ·) this
      · exact absurd h (by simp)

theorem startsWith_length_le (p s : Str) (h : startsWith p s = true) :
    p.length ≤ s.length := by
  have := startsWith_eq_append p s h
  have hlen := congrArg List.length this
  simp at hlen
  omega

theorem startsWith_append_of_le (p x y : Str) (h : startsWith p (x ++ y) = true)
    (hle : p.length ≤ x.length) : startsWith p x = true := by
  induction p generalizing x with
  | nil => simp [startsWith]
  | cons a ps ih =>
    cases x with
    | nil => simp at hle
    | cons b xs =>
      simp only [List.cons_append, startsWith] at h ⊢
      split at h
      · next hab => simp only [hab, if_pos rfl]; exact ih xs h (by simpa using hle)
      · exact absurd h (by simp)

theorem startsWith_drop_of_ge (p x y : Str) (h : startsWith p (x ++ y) = true)
    (hle : x.length ≤ p.length) : startsWith (p.drop x.length) y = true := by
  induction x generalizing p with
  | nil => simpa using h
  | cons b xs ih =>
    cases p with
    | nil => simp at hle
    | cons a ps =>
      simp only [List.cons_append, startsWith] at h
      split at h
      · next hab =>
        simpa using ih ps h (by simpa using hle)
      · exact absurd h (by simp)

theorem hasSub_of_startsWith (p s : Str) (h : startsWith p s = true) :
    hasSub p s = true := by
  cases s with
  | nil => simpa [hasSub] using h
  | cons c t => simp [hasSub, h]

theorem hasSub_tail (p : Str) (c : Char) (t : Str) (h : hasSub p t = true) :
    hasSub p (c :: t) = true := by
  simp [hasSub, h]

theorem hasSub_append_left (p x y : Str) (h : hasSub p x = true) :
    hasSub p (x ++ y) = true := by
  induction x with
  | nil =>
    have := startsWith_nil p (by simpa [hasSub] using h)
    subst this
    cases y with
    | nil => simp [hasSub, startsWith]
    | cons c t => simp [hasSub, startsWith]
  | cons c t ih =>
    simp only [hasSub, Bool.or_eq_true] at h
    rcases h with h | h
    · exact hasSub_of_startsWith _ _ (by
        have := startsWith_eq_append p (c :: t) h
        calc startsWith p ((c :: t) ++ y)
            = startsWith p (p ++ ((c :: t).drop p.length ++ y)) := by
              rw [← List.append_assoc, ← this]
          _ = true := startsWith_self_append _ _)
    · exact hasSub_tail _ _ _ (ih h)

theorem hasSub_drop (p s : Str) (n : Nat) (h : hasSub p (s.drop n) = true) :
    hasSub p s = true := by
  induction n generalizing s with
  | zero => simpa using h
  | succ m ih =>
    cases s with
    | nil => simpa using h
    | cons c t =>
      have : hasSub p t = true := ih t (by simpa using h)
      exact hasSub_tail _ _ _ this

theorem splitFirst_none_of_not_hasSub (p s : Str) (h : hasSub p s = false) :
    splitFirst p s = none := by
  induction s with
  | nil =>
    simp only [hasSub] at h
    simp [splitFirst, h]
  | cons c t ih =>
    simp only [hasSub, Bool.or_eq_false_iff] at h
    simp [splitFirst, h.1, ih h.2]

theorem drop_length_append (p a : Str) : (p ++ a).drop p.length = a := by
  induction p with
  | nil => simp
  | cons x xs ih => simp [ih]

theorem splitFirst_some_append (p s b a : Str)
    (h : splitFirst p s = some (b, a)) : s = b ++ p ++ a := by
  induction s generalizing b a with
  | nil =>
    simp only [splitFirst] at h
    split at h
    · next hsw =>
      have := startsWith_nil p hsw
      subst this
      simp at h
      simp [h.1, h.2]
    · simp at h
  | cons c t ih =>
    simp only [splitFirst] at h
    split at h
    · next hsw =>
      simp at h
      obtain ⟨hb, ha⟩ := h
      subst hb
      subst ha
      simpa using startsWith_eq_append p (c :: t) hsw
    · cases hsp : splitFirst p t with
      | none => rw [hsp] at h; simp at h
      | some ba =>
        rw [hsp] at h
        simp at h
        obtain ⟨hb, ha⟩ := h
        subst ha
        have := ih ba.1 ba.2 (by rw [hsp])
        rw [← hb]
        simpa using this

theorem splitFirst_some_hasSub (p s : Str) (x : Str × Str)
    (h : splitFirst p s = some x) : hasSub p s = true := by
  induction s generalizing x with
  | nil =>
    simp only [splitFirst] at h
    split at h
    · next hsw => simpa [hasSub] using hsw
    · simp at h
  | cons c t ih =>
    simp only [splitFirst] at h
    split at h
    · next hsw => simp [hasSub, hsw]
    · cases hsp : splitFirst p t with
      | none => rw [hsp] at h; simp at h
      | some ba => exact hasSub_tail _ _ _ (ih ba (by rw [hsp]))

/-- For a marker with no self-overlap, the first occurrence in `b ++ p ++ a`
with `p` not occurring in `b` is exactly at the boundary. -/
theorem splitFirst_boundary (p b a : Str) (hp : p ≠ [])
    (hno : NoSelfOverlap p) (hb : hasSub p b = false) :
    splitFirst p (b ++ p ++ a) = some (b, a) := by
  induction b with
  | nil =>
    show splitFirst p (p ++ a) = some ([], a)
    have h1 : startsWith p (p ++ a) = true := startsWith_self_append p a
    cases hpa : p ++ a with
    | nil =>
      have : p = [] := by
        cases p with
        | nil => rfl
        | cons x xs => simp at hpa
      exact absurd this hp
    | cons c t =>
      rw [hpa] at h1
      simp only [splitFirst, h1, if_true]
      rw [← hpa, drop_length_append]
  | cons c t ih =>
    simp only [hasSub, Bool.or_eq_false_iff] at hb
    have hnotSW : startsWith p ((c :: t) ++ p ++ a) = false := by
      by_contra hcon
      have hsw : startsWith p ((c :: t) ++ p ++ a) = true := by
        revert hcon; cases startsWith p ((c :: t) ++ p ++ a) <;> simp
      rcases le_or_lt p.length (c :: t).length with hle | hlt
      · have : startsWith p (c :: t) = true := by
          have := startsWith_append_of_le p (c :: t) (p ++ a) (by simpa [List.append_assoc] using hsw) hle
          exact this
        rw [this] at hb
        exact absurd hb.1 (by simp)
      · have hlen : (c :: t).length ≤ p.length := Nat.le_of_lt hlt
        have hdrop : startsWith (p.drop (c :: t).length) (p ++ a) = true :=
          startsWith_drop_of_ge p (c :: t) (p ++ a)
            (by simpa [List.append_assoc] using hsw) hlen
        have hlt' : (c :: t).length < p.length := hlt
        have hpos : 0 < (c :: t).length := by simp
        have hsw2 : startsWith (p.drop (c :: t).length) p = true := by
          have hle2 : (p.drop (c :: t).length).length ≤ p.length := by
            simp
          exact startsWith_append_of_le _ p a hdrop hle2
        have := hno (c :: t).length hlt' hpos
        rw [this] at hsw2
        exact absurd hsw2 (by simp)
    have heq : (c :: t) ++ p ++ a = c :: (t ++ p ++ a) := rfl
    have hnotSW2 : startsWith p (c :: (t ++ p ++ a)) = false := hnotSW
    rw [heq]
    simp only [splitFirst, hnotSW2, Bool.false_eq_true, if_false, ih hb.2]
    rfl

theorem hasSub_false_of_append (p x y : Str) (h : hasSub p (x ++ y) = false) :
    hasSub p x = false := by
  by_contra hcon
  have : hasSub p x = true := by revert hcon; cases hasSub p x <;> simp
  rw [hasSub_append_left p x y this] at h
  exact absurd h (by simp)

theorem catAll_append (xs ys : List Str) :
    catAll (xs ++ ys) = catAll xs ++ catAll ys := by
  induction xs with
  | nil => simp [catAll]
  | cons s rest ih => simp [catAll, ih]

theorem noSelfOverlap_thinkClose : NoSelfOverlap thinkClose := by decide

theorem noSelfOverlap_toolClose : NoSelfOverlap toolClose := by decide

/-! ### Shared lemmas about the embedded operations -/

theorem ne_nil_of_hasSub (p s : Str) (hp : p ≠ []) (h : hasSub p s = true) :
    s ≠ [] := by
  intro hs
  subst hs
  simp only [hasSub] at h
  exact hp (startsWith_nil p h)

/-- With no closing marker, `_parse_think_tags` returns the content
unchanged. -/
theorem parse_think_tags_none (S : Str) (h : hasSub thinkClose S = false) :
    Handler.parse_think_tags S = (none, S) := by
  unfold Handler.parse_think_tags
  split
  · rfl
  · have hstrip : hasSub thinkClose (Handler.stripLeadingThink S) = false := by
      unfold Handler.stripLeadingThink
      split
      · by_contra hc
        have h1 : hasSub thinkClose (S.drop thinkOpen.length) = true := by
          revert hc
          cases hasSub thinkClose (S.drop thinkOpen.length) <;> simp
        have := hasSub_drop thinkClose S thinkOpen.length h1
        rw [h] at this
        exact absurd this (by simp)
      · exact h
    rw [splitFirst_none_of_not_hasSub _ _ hstrip]

/-- Splitting lemma: `_parse_think_tags` splits exactly at the first closing marker after the
optional leading `<think>` is stripped. -/
theorem parse_think_tags_split (S b a : Str)
    (h1 : Handler.stripLeadingThink S = b ++ thinkClose ++ a)
    (h2 : hasSub thinkClose b = false) :
    Handler.parse_think_tags S = (some (pyStrip b), pyStrip a) := by
  have hS : S ≠ [] := by
    intro hS0
    subst hS0
    have hnil : Handler.stripLeadingThink [] = [] := by decide
    rw [hnil] at h1
    have hlen := congrArg List.length h1
    simp [thinkClose] at hlen
    omega
  unfold Handler.parse_think_tags
  rw [if_neg hS, h1,
    splitFirst_boundary thinkClose b a (by decide) noSelfOverlap_thinkClose h2]

theorem parse_think_tags_some_hasSub (S r m' : Str)
    (h : Handler.parse_think_tags S = (some r, m')) :
    hasSub thinkClose S = true := by
  by_contra hc
  have hf : hasSub thinkClose S = false := by
    revert hc
    cases hasSub thinkClose S <;> simp
  rw [parse_think_tags_none S hf] at h
  simp at h

theorem parse_think_tags_inv (S r m' : Str)
    (h : Handler.parse_think_tags S = (some r, m'))
    (hns : startsWith thinkOpen S = false) :
    ∃ b a, splitFirst thinkClose S = some (b, a) ∧ pyStrip b = r ∧ pyStrip a = m' := by
  have hcl := parse_think_tags_some_hasSub S r m' h
  have hS : S ≠ [] := ne_nil_of_hasSub _ _ (by decide) hcl
  unfold Handler.parse_think_tags at h
  rw [if_neg hS] at h
  unfold Handler.stripLeadingThink at h
  simp only [hns, Bool.false_eq_true, if_false] at h
  cases hsp : splitFirst thinkClose S with
  | none => rw [hsp] at h; simp at h
  | some ba =>
    obtain ⟨b0, a0⟩ := ba
    rw [hsp] at h
    simp only [Prod.mk.injEq, Option.some.injEq] at h
    exact ⟨b0, a0, rfl, h.1, h.2⟩

theorem findBetween_nil_of_no_open (oT cT s : Str) (h : hasSub oT s = false) :
    findBetween oT cT s = [] := by
  unfold findBetween
  show findBetweenF oT cT (s.length + 1) s = []
  rw [findBetweenF, splitFirst_none_of_not_hasSub _ _ h]

/-- With no opening marker, the proxy's think extractor passes the content
through. -/
theorem extract_think_content_no_open (S : Str) (h : hasSub thinkOpen S = false) :
    Tabby.extract_think_content S = (none, S) := by
  unfold Tabby.extract_think_content
  split
  · next hS => rw [hS]
  · dsimp only
    rw [findBetween_nil_of_no_open _ _ _ h]
    simp

theorem applyThink_tool_calls (m : Handler.Message) :
    (Handler.applyThink m).tool_calls = m.tool_calls := by
  unfold Handler.applyThink
  dsimp only
  split
  · split
    · split <;> rfl
    · rfl
  · rfl

theorem applyThink_no_close (m : Handler.Message)
    (h : hasSub thinkClose (m.content.getD []) = false) :
    Handler.applyThink m = m := by
  unfold Handler.applyThink
  dsimp only
  rw [if_neg (by rw [h]; simp)]

theorem applyThink_set (S r m' : Str)
    (h : Handler.parse_think_tags S = (some r, m')) (hr : r ≠ []) :
    Handler.applyThink ⟨some S, none, ([] : List ToolCall)⟩ = ⟨some m', some r, []⟩ := by
  have hcl := parse_think_tags_some_hasSub S r m' h
  unfold Handler.applyThink
  dsimp only
  simp only [Option.getD_some]
  rw [if_pos (by exact hcl), h]
  dsimp only
  rw [if_pos hr]

/-- The tool-call step of the complete hook never rewrites `content` or
`reasoning_content`: the returned message agrees with the think step on both
fields. -/
theorem hook_think_fields (mkId : Nat → Str) (m : Handler.Message)
    (finish : Option Str) :
    (Handler.async_post_call_success_hook mkId m finish).1.content =
      (Handler.applyThink m).content ∧
    (Handler.async_post_call_success_hook mkId m finish).1.reasoning_content =
      (Handler.applyThink m).reasoning_content := by
  unfold Handler.async_post_call_success_hook
  dsimp only
  constructor <;>
    (split
     · rfl
     · split
       · split <;> rfl
       · rfl)

/-- A fragment that completes no marker passes straight through. -/
theorem step_passthrough (buf f : Str) (hf : f ≠ [])
    (hb1 : hasSub thinkOpen (buf ++ f) = false)
    (hb2 : hasSub thinkClose (buf ++ f) = false) :
    Handler.streaming_hook_step ⟨buf, false, false, false⟩ f =
      (⟨buf ++ f, false, false, false⟩, ⟨none, some f⟩) := by
  unfold Handler.streaming_hook_step
  rw [if_neg hf]
  dsimp only
  rw [hb1, hb2]
  rfl

/-- A single fragment containing `<think>` and `</think>` resolves the think
span in one step. -/
theorem step_think (S r m' : Str)
    (h : Handler.parse_think_tags S = (some r, m')) (hr : r ≠ [])
    (hopen : hasSub thinkOpen S = true) :
    Handler.streaming_hook_step Handler.emptyBuf S =
      (⟨S, true, true, true⟩, ⟨some r, some m'⟩) := by
  have hclose := parse_think_tags_some_hasSub S r m' h
  have hS : S ≠ [] := ne_nil_of_hasSub _ _ (by decide) hclose
  unfold Handler.streaming_hook_step Handler.emptyBuf
  rw [if_neg hS]
  dsimp only
  simp only [List.nil_append]
  rw [hopen, hclose]
  simp only [h]
  simp [hr]

/-- A single fragment with a closing marker but no opening tag takes the
GLM-style branch; an empty remainder is delivered as `None`. -/
theorem step_glm (S b a : Str)
    (hopen : hasSub thinkOpen S = false)
    (hsp : splitFirst thinkClose S = some (b, a))
    (hr : pyStrip b ≠ []) (hm : pyStrip a ≠ []) :
    Handler.streaming_hook_step Handler.emptyBuf S =
      (⟨S, false, true, true⟩, ⟨some (pyStrip b), some (pyStrip a)⟩) := by
  have hclose : hasSub thinkClose S = true := splitFirst_some_hasSub _ _ _ hsp
  have hS : S ≠ [] := ne_nil_of_hasSub _ _ (by decide) hclose
  unfold Handler.streaming_hook_step Handler.emptyBuf
  rw [if_neg hS]
  dsimp only
  simp only [List.nil_append]
  rw [hopen, hclose]
  simp only [hsp]
  simp [hr, hm]

/-- Over marker-free text, every fragment of a session passes through
verbatim. -/
theorem runFrom_no_marker (frags : List Str) : ∀ buf : Str,
    hasSub thinkOpen (buf ++ catAll frags) = false →
    hasSub thinkClose (buf ++ catAll frags) = false →
    Handler.runFrom ⟨buf, false, false, false⟩ frags =
      frags.map fun f => ⟨none, if f = [] then none else some f⟩ := by
  induction frags with
  | nil => intro buf h1 h2; rfl
  | cons f fs ih =>
    intro buf h1 h2
    simp only [catAll] at h1 h2
    have h1' : hasSub thinkOpen (buf ++ f ++ catAll fs) = false := by
      rw [List.append_assoc]; exact h1
    have h2' : hasSub thinkClose (buf ++ f ++ catAll fs) = false := by
      rw [List.append_assoc]; exact h2
    have hb1 := hasSub_false_of_append _ _ _ h1'
    have hb2 := hasSub_false_of_append _ _ _ h2'
    by_cases hf : f = []
    · subst hf
      show (Handler.streaming_hook_step ⟨buf, false, false, false⟩ []).2 ::
          Handler.runFrom (Handler.streaming_hook_step ⟨buf, false, false, false⟩ []).1 fs = _
      have hstep : Handler.streaming_hook_step ⟨buf, false, false, false⟩ ([] : Str) =
          (⟨buf, false, false, false⟩, ⟨none, none⟩) := by
        unfold Handler.streaming_hook_step
        rw [if_pos rfl]
      rw [hstep]
      rw [ih buf (by simpa using h1) (by simpa using h2)]
      simp
    · show (Handler.streaming_hook_step ⟨buf, false, false, false⟩ f).2 ::
          Handler.runFrom (Handler.streaming_hook_step ⟨buf, false, false, false⟩ f).1 fs = _
      rw [step_passthrough buf f hf hb1 hb2]
      rw [ih (buf ++ f) h1' h2']
      simp [hf]

theorem totalContent_passthrough (fs : List Str) :
    Handler.totalContent (fs.map fun f => ⟨none, if f = [] then none else some f⟩) =
      catAll fs := by
  induction fs with
  | nil => rfl
  | cons f fs ih =>
    by_cases hf : f = []
    · subst hf
      simp [Handler.totalContent, catAll] at ih ⊢
      exact ih
    · simp [Handler.totalContent, catAll, hf] at ih ⊢
      rw [ih]

theorem totalReasoning_passthrough (fs : List Str) :
    Handler.totalReasoning (fs.map fun f => ⟨none, if f = [] then none else some f⟩) =
      [] := by
  induction fs with
  | nil => rfl
  | cons f fs ih => simpa [Handler.totalReasoning, catAll] using ih

/-- On marker-free text the assembled stream output is exactly the input
text as content, with no reasoning. -/
theorem streamTotals_no_marker (frags : List Str)
    (h1 : hasSub thinkOpen (catAll frags) = false)
    (h2 : hasSub thinkClose (catAll frags) = false) :
    Handler.streamTotals frags = ([], catAll frags) := by
  unfold Handler.streamTotals Handler.runStream Handler.emptyBuf
  rw [runFrom_no_marker frags [] (by simpa using h1) (by simpa using h2)]
  rw [totalReasoning_passthrough, totalContent_passthrough]

/-! ### Claim theorems -/

/-- Claim C1.  The claim states that complete-mode extraction of a well-formed
`<tool_call>` span whose body is `\x7b"name": n, "arguments": A\x7d` with `A` a
nested JSON object yields exactly one invocation, removes the span from the
content, and sets the finish signal to `"tool_calls"`.  The proxy
(`extract_tool_calls` / `transform_response`) behaves exactly as claimed, but
the handler's `_parse_tool_calls` narrows each body with
`re.search(r'\{[^{}]*\}')`, which on a nested-arguments body selects the inner
`\x7b"city":"Paris"\x7d` object; that object carries no `"name"`, so the handler
returns zero invocations and `async_post_call_success_hook` leaves the message
and finish signal completely unchanged, the markup still in `content`. -/
theorem c1_nested_arguments_code_bug :
    (Tabby.extract_tool_calls nestedToolInput).1.map (fun c => (c.name, c.arguments)) =
      [("get_weather".toList, "\x7b\"city\": \"Paris\"\x7d".toList)] ∧
    (Tabby.extract_tool_calls nestedToolInput).2 = [] ∧
    Tabby.transform_response ⟨some nestedToolInput, none, []⟩ none =
      (⟨none, none, (Tabby.extract_tool_calls nestedToolInput).1⟩,
        some "tool_calls".toList) ∧
    Handler.parse_tool_calls uuidStub nestedToolInput = [] ∧
    Handler.async_post_call_success_hook uuidStub ⟨some nestedToolInput, none, []⟩ none =
      (⟨some nestedToolInput, none, []⟩, none) := by
  refine ⟨by decide, by decide, by decide, by decide, by decide⟩

/-- Claim C2 (counterexample).  Feeding a complete-mode-extractable tool-call
text as one single fragment through the streaming hook yields a plain
pass-through — the hook performs no tool-call extraction at all — while the
complete hook attaches one invocation and the `"tool_calls"` finish signal;
and for GLM-style text with an empty remainder, complete mode delivers
content `""` (`some []`) where the stream delivers `None`.  Hence
single-fragment streaming and complete mode are not equivalent as claimed. -/
theorem c2_counterexample :
    (Handler.async_post_call_success_hook uuidStub ⟨some plainToolMsg, none, []⟩
        none).1.tool_calls.length = 1 ∧
    (Handler.async_post_call_success_hook uuidStub ⟨some plainToolMsg, none, []⟩
        none).2 = some "tool_calls".toList ∧
    Handler.streaming_hook_step Handler.emptyBuf plainToolMsg =
      (⟨plainToolMsg, false, false, false⟩, ⟨none, some plainToolMsg⟩) ∧
    (Handler.async_post_call_success_hook uuidStub ⟨some glmEmptyRemainder, none, []⟩
        none).1.content = some [] ∧
    (Handler.streaming_hook_step Handler.emptyBuf glmEmptyRemainder).2.content = none := by
  refine ⟨by decide, by decide, by decide, by decide, by decide⟩

/-- Claim C2 (amended).  For every text containing `</think>` whose extracted
reasoning span is nonempty and whose trimmed remainder is nonempty, feeding
the whole text as one fragment through the streaming hook emits the same
`reasoning_content` and `content` as the complete hook produces; the
streaming hook never extracts tool calls, so the equivalence cannot extend to
`tool_calls`. -/
theorem c2_amended_equivalence (S r m' : Str)
    (h : Handler.parse_think_tags S = (some r, m')) (hr : r ≠ []) (hm : m' ≠ []) :
    (Handler.streaming_hook_step Handler.emptyBuf S).2 = ⟨some r, some m'⟩ ∧
    ∀ (mkId : Nat → Str) (finish : Option Str),
      (Handler.async_post_call_success_hook mkId ⟨some S, none, []⟩
          finish).1.reasoning_content = some r ∧
      (Handler.async_post_call_success_hook mkId ⟨some S, none, []⟩
          finish).1.content = some m' := by
  constructor
  · by_cases hopen : hasSub thinkOpen S = true
    · rw [step_think S r m' h hr hopen]
    · have hopen' : hasSub thinkOpen S = false := by
        revert hopen
        cases hasSub thinkOpen S <;> simp
      have hns : startsWith thinkOpen S = false := by
        by_contra hc
        have hc' : startsWith thinkOpen S = true := by
          revert hc
          cases startsWith thinkOpen S <;> simp
        rw [hasSub_of_startsWith _ _ hc'] at hopen'
        exact absurd hopen' (by simp)
      obtain ⟨b, a, hsp, hb, ha⟩ := parse_think_tags_inv S r m' h hns
      rw [step_glm S b a hopen' hsp (by rw [hb]; exact hr) (by rw [ha]; exact hm)]
      rw [hb, ha]
  · intro mkId finish
    have hset := applyThink_set S r m' h hr
    have hcr := hook_think_fields mkId ⟨some S, none, []⟩ finish
    exact ⟨by rw [hcr.2, hset], by rw [hcr.1, hset]⟩

/-- Witness for C2 (amended) at `"<think>abc</think>xy"`. -/
theorem c2_amended_equivalence_witness :
    (Handler.streaming_hook_step Handler.emptyBuf "<think>abc</think>xy".toList).2 =
      ⟨some "abc".toList, some "xy".toList⟩ ∧
    (Handler.async_post_call_success_hook uuidStub
        ⟨some "<think>abc</think>xy".toList, none, []⟩ none).1.reasoning_content =
      some "abc".toList :=
  ⟨(c2_amended_equivalence "<think>abc</think>xy".toList "abc".toList "xy".toList
      (by decide) (by decide) (by decide)).1,
   ((c2_amended_equivalence "<think>abc</think>xy".toList "abc".toList "xy".toList
      (by decide) (by decide) (by decide)).2 uuidStub none).1⟩

/-- Claim C3 (counterexample).  The claim describes one Think-Span Extractor
splitting at the first `</think>` with the opening marker optional.  The
proxy's extractor `extract_think_content` does not do this: on scenario B's
`"some thoughts</think>Final answer"` (no opening tag) it extracts nothing
and returns the text unchanged, and with two paired blocks it extracts both
(joined by a newline) rather than splitting exactly once. -/
theorem c3_counterexample :
    Tabby.extract_think_content scenarioB = (none, scenarioB) ∧
    Tabby.extract_think_content scenarioB ≠
      (some "some thoughts".toList, "Final answer".toList) ∧
    Tabby.extract_think_content "<think>a</think>mid<think>b</think>end".toList =
      (some "a\nb".toList, "midend".toList) := by
  refine ⟨by decide, by decide, by decide⟩

/-- Claim C3 (amended): the claimed behaviour holds of the handler's extractor
`_parse_think_tags`.  If, after stripping one leading `<think>`, the text
decomposes as `b ++ "</think>" ++ a` with no earlier closing marker in `b`,
the extractor returns exactly `(strip b, strip a)` — a single split, so any
later `</think>` stays verbatim inside the content — and with no closing
marker anywhere it returns `(none, S)` with `S` unchanged. -/
theorem c3_amended_split (S b a : Str) :
    (Handler.stripLeadingThink S = b ++ thinkClose ++ a →
      hasSub thinkClose b = false →
      Handler.parse_think_tags S = (some (pyStrip b), pyStrip a)) ∧
    (hasSub thinkClose S = false → Handler.parse_think_tags S = (none, S)) :=
  ⟨fun h1 h2 => parse_think_tags_split S b a h1 h2, fun h => parse_think_tags_none S h⟩

/-- Witness for C3 (amended): both branches at concrete inputs; the second
`</think>` of the first input stays verbatim inside the content. -/
theorem c3_amended_split_witness :
    Handler.parse_think_tags "<think> x </think> y </think> z".toList =
      (some (pyStrip " x ".toList), pyStrip " y </think> z".toList) ∧
    Handler.parse_think_tags "plain text".toList = (none, "plain text".toList) :=
  ⟨(c3_amended_split "<think> x </think> y </think> z".toList " x ".toList
      " y </think> z".toList).1 (by decide) (by decide),
   (c3_amended_split "plain text".toList [] []).2 (by decide)⟩

/-- Claim C4 (counterexample).  Splitting `"<think>a</think>b"` into the two
fragments `"<th"` / `"ink>a</think>b"` changes the assembled output: the
fragment ending mid-marker passes `"<th"` through as visible content before
the marker completes, so the total content is `"<thb"` instead of `"b"`.
Re-chunking invariance fails. -/
theorem c4_counterexample :
    Handler.streamTotals ["<th".toList, "ink>a</think>b".toList] =
      ("a".toList, "<thb".toList) ∧
    Handler.streamTotals [catAll ["<th".toList, "ink>a</think>b".toList]] =
      ("a".toList, "b".toList) ∧
    Handler.streamTotals ["<th".toList, "ink>a</think>b".toList] ≠
      Handler.streamTotals [catAll ["<th".toList, "ink>a</think>b".toList]] := by
  refine ⟨by decide, by decide, by decide⟩

/-- Claim C4 (amended).  Re-chunking invariance does hold for texts containing
neither `<think>` nor `</think>`: any fragmentation assembles to the same
totals as the single-fragment run (both are pure pass-through). -/
theorem c4_amended_invariance (frags : List Str)
    (h1 : hasSub thinkOpen (catAll frags) = false)
    (h2 : hasSub thinkClose (catAll frags) = false) :
    Handler.streamTotals frags = Handler.streamTotals [catAll frags] := by
  rw [streamTotals_no_marker frags h1 h2,
    streamTotals_no_marker [catAll frags] (by simpa [catAll] using h1)
      (by simpa [catAll] using h2)]
  simp [catAll]

/-- Witness for C4 (amended) at the two fragments `"ab"`, `"cd"`. -/
theorem c4_amended_invariance_witness :
    Handler.streamTotals ["ab".toList, "cd".toList] =
      Handler.streamTotals [catAll ["ab".toList, "cd".toList]] :=
  c4_amended_invariance ["ab".toList, "cd".toList] (by decide) (by decide)

/-- Claim C5.  On the fragments `"<think>partial"` then
`" thought</think>done"`, the claim (spec scenario D) says `reasoning_content`
is emitted exactly once, as `"partial thought"`.  The code emits it twice:
the incremental thinking branch sends `"partial"` as a reasoning delta
without setting `reasoning_emitted`, and the completion branch then re-emits
the whole span `"partial thought"`, duplicating the already-streamed prefix.
The content `"done"` does match the claim. -/
theorem c5_duplicate_emission_code_bug :
    Handler.runStream ["<think>partial".toList, " thought</think>done".toList] =
      [⟨some "partial".toList, none⟩,
       ⟨some "partial thought".toList, some "done".toList⟩] ∧
    ((Handler.runStream ["<think>partial".toList, " thought</think>done".toList]).filter
        (fun o => o.reasoning_content.isSome)).length = 2 := by
  refine ⟨by decide, by decide⟩

/-- Claim C6.  The no-duplication invariant fails on the streaming path: for
the fragments `"<think>ab"` / `"c</think>d"` the characters `"ab"` are
emitted in the first reasoning delta and again inside the second one, so the
assembled reasoning is `"ababc"` although the raw text `"<think>abc</think>d"`
contains `"ab"` once. -/
theorem c6_duplication_code_bug :
    Handler.runStream ["<think>ab".toList, "c</think>d".toList] =
      [⟨some "ab".toList, none⟩, ⟨some "abc".toList, some "d".toList⟩] ∧
    Handler.totalReasoning (Handler.runStream ["<think>ab".toList, "c</think>d".toList]) =
      "ababc".toList ∧
    catAll ["<think>ab".toList, "c</think>d".toList] = "<think>abc</think>d".toList := by
  refine ⟨by decide, by decide, by decide⟩

/-- Claim C7 (counterexample).  When the handler's complete hook finds an
invocation it does set `tool_calls` and the `"tool_calls"` finish signal, but
it never rewrites the message content: the full `<tool_call>...</tool_call>`
markup remains in `content` instead of the post-extraction remainder
(`none`), contradicting the claim that delivered content never retains
recognized markup. -/
theorem c7_counterexample :
    (Handler.async_post_call_success_hook uuidStub ⟨some flatToolInput, none, []⟩
        none).1.tool_calls.length = 1 ∧
    (Handler.async_post_call_success_hook uuidStub ⟨some flatToolInput, none, []⟩
        none).2 = some "tool_calls".toList ∧
    (Handler.async_post_call_success_hook uuidStub ⟨some flatToolInput, none, []⟩
        none).1.content = some flatToolInput ∧
    hasSub toolOpen flatToolInput = true := by
  refine ⟨by decide, by decide, by decide, by decide⟩

/-- Claim C7 (amended).  For a message without think markup, no pre-existing
tool calls, and at least one invocation found: the proxy's transformer sets
the `"tool_calls"` finish signal and replaces content by the extraction
remainder (or `none` when empty), exactly as claimed; the handler's hook sets
`tool_calls` and the finish signal but leaves `content` unchanged. -/
theorem c7_amended_transform (S : Str) (mkId : Nat → Str)
    (h1 : hasSub thinkOpen S = false)
    (h2 : hasSub thinkClose S = false)
    (h3 : hasSub toolOpen S = true)
    (h4 : (Tabby.extract_tool_calls S).1 ≠ [])
    (h5 : Handler.parse_tool_calls mkId S ≠ []) :
    Tabby.transform_response ⟨some S, none, []⟩ none =
      (⟨if (Tabby.extract_tool_calls S).2 = [] then none
          else some (Tabby.extract_tool_calls S).2,
        none, (Tabby.extract_tool_calls S).1⟩, some "tool_calls".toList) ∧
    Handler.async_post_call_success_hook mkId ⟨some S, none, []⟩ none =
      (⟨some S, none, Handler.parse_tool_calls mkId S⟩, some "tool_calls".toList) := by
  constructor
  · unfold Tabby.transform_response
    dsimp only
    simp only [Option.getD_some, extract_think_content_no_open S h1]
    rw [if_pos (by exact h3)]
    rw [if_pos ⟨trivial, h4⟩]
  · have hAT : Handler.applyThink ⟨some S, none, []⟩ = ⟨some S, none, []⟩ :=
      applyThink_no_close _ (by simpa using h2)
    unfold Handler.async_post_call_success_hook
    dsimp only
    rw [hAT]
    rw [if_neg (by simp)]
    rw [if_pos (by simp [h3])]
    simp only [Option.getD_some]
    rw [if_pos h5]

/-- Witness for C7 (amended) at a flat-arguments span with trailing text. -/
theorem c7_amended_transform_witness :
    Tabby.transform_response ⟨some c7WitnessInput, none, []⟩ none =
      (⟨if (Tabby.extract_tool_calls c7WitnessInput).2 = [] then none
          else some (Tabby.extract_tool_calls c7WitnessInput).2,
        none, (Tabby.extract_tool_calls c7WitnessInput).1⟩, some "tool_calls".toList) ∧
    Handler.async_post_call_success_hook uuidStub ⟨some c7WitnessInput, none, []⟩ none =
      (⟨some c7WitnessInput, none, Handler.parse_tool_calls uuidStub c7WitnessInput⟩,
        some "tool_calls".toList) :=
  c7_amended_transform c7WitnessInput uuidStub (by decide) (by decide) (by decide)
    (by decide) (by decide)

/-- Claim C8 (counterexample).  On scenario E's `"<tool_call>\x7bnot
json\x7d</tool_call>"` the handler returns zero invocations but does not strip
the tag markup: the complete hook returns the message completely unchanged,
the unparseable span still in `content`, contradicting "tag markup stripped,
remaining text passed through". -/
theorem c8_counterexample :
    Handler.async_post_call_success_hook uuidStub ⟨some notJsonInput, none, []⟩ none =
      (⟨some notJsonInput, none, []⟩, none) ∧
    hasSub toolOpen notJsonInput = true ∧
    Handler.parse_tool_calls uuidStub notJsonInput = [] := by
  refine ⟨by decide, by decide, by decide⟩

/-- Claim C8 (amended).  A candidate body whose JSON parse fails is skipped
without aborting the grammar — the handler's per-match loop on a failing head
body equals the loop on the remaining bodies, so sibling matches still yield
invocations — and in the proxy scenario E behaves exactly as claimed: zero
invocations, markup stripped, empty remainder delivered as `None` content.
The handler, by contrast, leaves the markup in content (see the
counterexample). -/
theorem c8_amended_skip (mkId : Nat → Str) (k : Nat) (b : Str) (bs : List Str)
    (h : loads (Handler.narrowBody b) = none) :
    Handler.tool_call_loop mkId k (b :: bs) = Handler.tool_call_loop mkId k bs ∧
    Tabby.transform_response ⟨some notJsonInput, none, []⟩ none =
      (⟨none, none, []⟩, none) := by
  constructor
  · have hb : Handler.bodyToCall b = none := by
      unfold Handler.bodyToCall
      rw [h]
    simp [Handler.tool_call_loop, hb]
  · decide

/-- Witness for C8 (amended): the failing body `"\x7bnot json\x7d"` is skipped
while its sibling still parses. -/
theorem c8_amended_skip_witness :
    Handler.tool_call_loop uuidStub 0
        ["\x7bnot json\x7d".toList, "\x7b\"name\":\"g\",\"arguments\":\"2\"\x7d".toList] =
      Handler.tool_call_loop uuidStub 0
        ["\x7b\"name\":\"g\",\"arguments\":\"2\"\x7d".toList] ∧
    Tabby.transform_response ⟨some notJsonInput, none, []⟩ none =
      (⟨none, none, []⟩, none) :=
  c8_amended_skip uuidStub 0 "\x7bnot json\x7d".toList
    ["\x7b\"name\":\"g\",\"arguments\":\"2\"\x7d".toList] (by decide)

/-- Claim C9.  Ids are not pairwise distinct: the proxy synthesizes ids by
hashing the matched body text, so the same body occurring twice in one
response (exactly the case the claim singles out) receives the identical id
`call_1919273479` twice — the produced list violates uniqueness. -/
theorem c9_duplicate_ids_code_bug :
    ((Tabby.extract_tool_calls dupToolInput).1.map (fun c => c.id)) =
      [Tabby.hash_string "\x7b\"name\":\"dup\",\"arguments\":\"1\"\x7d".toList,
       Tabby.hash_string "\x7b\"name\":\"dup\",\"arguments\":\"1\"\x7d".toList] ∧
    ¬ ((Tabby.extract_tool_calls dupToolInput).1.map (fun c => c.id)).Nodup ∧
    (Tabby.extract_tool_calls dupToolInput).1.length = 2 := by
  refine ⟨by decide, by decide, by decide⟩

/-- Claim C10.  A message arriving with a non-empty `tool_calls` list keeps it
unchanged through both complete-mode transformers, no content-derived
invocations are attached, and the finish signal is left untouched. -/
theorem c10_frame (mkId : Nat → Str) (hm : Handler.Message) (tm : Tabby.TMsg)
    (fh ft : Option Str)
    (h1 : hm.tool_calls ≠ []) (h2 : tm.tool_calls ≠ []) :
    (Handler.async_post_call_success_hook mkId hm fh).1.tool_calls = hm.tool_calls ∧
    (Handler.async_post_call_success_hook mkId hm fh).2 = fh ∧
    (Tabby.transform_response tm ft).1.tool_calls = tm.tool_calls ∧
    (Tabby.transform_response tm ft).2 = ft := by
  refine ⟨?_, ?_, ?_, ?_⟩
  · unfold Handler.async_post_call_success_hook
    rw [if_pos (by rw [applyThink_tool_calls]; exact h1)]
    exact applyThink_tool_calls hm
  · unfold Handler.async_post_call_success_hook
    rw [if_pos (by rw [applyThink_tool_calls]; exact h1)]
  · unfold Tabby.transform_response
    dsimp only
    split
    · rw [if_neg (by intro hc; exact h2 hc.1)]
      split <;> split <;> first | rfl | (split <;> rfl)
    · split <;> split <;> first | rfl | (split <;> rfl)
  · unfold Tabby.transform_response
    dsimp only
    split
    · rw [if_neg (by intro hc; exact h2 hc.1)]
    · rfl

/-- Witness for C10 at messages already carrying one tool call. -/
theorem c10_frame_witness :
    (Handler.async_post_call_success_hook uuidStub
        ⟨some "x<tool_call>y".toList, none,
         [⟨"id1".toList, "function".toList, "f".toList, "1".toList⟩]⟩ none).1.tool_calls =
      [⟨"id1".toList, "function".toList, "f".toList, "1".toList⟩] ∧
    (Tabby.transform_response
        ⟨some "x<tool_call>y".toList, none,
         [⟨"id2".toList, "function".toList, "g".toList, "2".toList⟩]⟩
        (some "stop".toList)).2 = some "stop".toList :=
  ⟨(c10_frame uuidStub
      ⟨some "x<tool_call>y".toList, none,
       [⟨"id1".toList, "function".toList, "f".toList, "1".toList⟩]⟩
      ⟨some "x<tool_call>y".toList, none,
       [⟨"id2".toList, "function".toList, "g".toList, "2".toList⟩]⟩
      none (some "stop".toList) (by decide) (by decide)).1,
   (c10_frame uuidStub
      ⟨some "x<tool_call>y".toList, none,
       [⟨"id1".toList, "function".toList, "f".toList, "1".toList⟩]⟩
      ⟨some "x<tool_call>y".toList, none,
       [⟨"id2".toList, "function".toList, "g".toList, "2".toList⟩]⟩
      none (some "stop".toList) (by decide) (by decide)).2.2.2⟩
